import Mathlib

/-!
Shallow embedding of the core of `train.py` from the `mhcpred` repository
(pairwise amino-acid feature encoding and the iterative coefficient
refinement engine), together with theorems checking the natural-language
specification against it.

Numeric values carried by numpy arrays are modelled as rationals (`ℚ`);
integer index matrices are lists of lists of naturals.  Calls into external
libraries (`sklearn` model fitting/prediction, `numpy`'s `log`/`log10`/`exp`)
are modelled as explicit function parameters: the repository's own code only
ever passes data to them and consumes their results, so each theorem
quantifies over those parameters.  Python `assert` failures, `IndexError`,
`KeyError` and `NameError` are modelled by an explicit error type carried in
`Except`, using the error names the specification assigns to each
precondition.
-/

namespace Mhcpred

/-- Failure modes of the embedded code.  The specification's taxonomy names
`DimensionMismatch` for length/shape contract violations, `IndexOutOfRange`
for bad index references, and `UnknownSymbol` for a letter outside the
20-letter alphabet; `nameError` models a Python `NameError` raised when a
statement references an identifier that is not defined anywhere. -/
inductive Err where
  | dimensionMismatch
  | indexOutOfRange
  | unknownSymbol
  | nameError
deriving DecidableEq, Repr

/-- Integer index matrices (numpy 2-d integer arrays, one row per sample). -/
abbrev NatMatrix := List (List ℕ)

/-- Real-valued matrices (numpy 2-d float arrays). -/
abbrev QMatrix := List (List ℚ)

/-- Sequential loop over a list in which each step can fail: the Python
pattern of a `for` loop whose body may raise, collecting one result per
element.  The first failure aborts the whole loop. -/
def exceptMap {α β : Type} (f : α → Except Err β) : List α → Except Err (List β)
  | [] => .ok []
  | a :: l => (f a).bind fun b => (exceptMap f l).map fun bs => b :: bs

theorem exceptMap_ok {α β : Type} (f : α → Except Err β) (g : α → β) :
    ∀ l : List α, (∀ x ∈ l, f x = .ok (g x)) → exceptMap f l = .ok (l.map g) := by
  intro l
  induction l with
  | nil => intro _; rfl
  | cons a l ih =>
    intro h
    have ha := h a (List.mem_cons_self a l)
    have hl := ih fun x hx => h x (List.mem_cons_of_mem a hx)
    simp [exceptMap, ha, hl, Except.bind, Except.map]

theorem exceptMap_error {α β : Type} (f : α → Except Err β) (e : Err) :
    ∀ l : List α, (∀ x ∈ l, (∃ b, f x = .ok b) ∨ f x = .error e) →
      (∃ x ∈ l, f x = .error e) → exceptMap f l = .error e := by
  intro l
  induction l with
  | nil => rintro _ ⟨x, hx, _⟩; exact absurd hx (List.not_mem_nil x)
  | cons a l ih =>
    rintro h ⟨x, hx, hxe⟩
    rcases h a (List.mem_cons_self a l) with ⟨b, hb⟩ | hb
    · rcases List.mem_cons.mp hx with rfl | hx'
      · rw [hb] at hxe; exact absurd hxe (by simp)
      · have : exceptMap f l = .error e :=
          ih (fun y hy => h y (List.mem_cons_of_mem a hy)) ⟨x, hx', hxe⟩
        simp [exceptMap, hb, this, Except.bind, Except.map]
    · simp [exceptMap, hb, Except.bind]

/-! ### Alphabet and pair index (train.py lines 14-29) -/

/-- One step of insertion sort over characters, used to model Python's
`sorted` on a list of single-character strings (ascending code-point
order). -/
def insertSorted (c : Char) : List Char → List Char
  | [] => [c]
  | d :: l => if c ≤ d then c :: d :: l else d :: insertSorted c l

/-- Executable model of Python's `sorted` on a character list. -/
def sortChars (l : List Char) : List Char := l.foldr insertSorted []

/-- `AMINO_ACID_LETTERS = list(sorted([...]))`: the 20 amino-acid letters in
sorted order. -/
def AMINO_ACID_LETTERS : List Char :=
  sortChars ['G', 'P', 'A', 'V', 'L', 'I', 'M', 'C', 'F', 'Y',
    'W', 'H', 'K', 'R', 'Q', 'N', 'E', 'D', 'S', 'T']

/-- `AMINO_ACID_PAIRS = ["%s%s" % (x,y) for y in AMINO_ACID_LETTERS for x in
AMINO_ACID_LETTERS]`: all 400 ordered letter pairs, the second letter (`y`)
varying in the outer loop.  A two-character string `x+y` is modelled as the
pair `(x, y)`. -/
def AMINO_ACID_PAIRS : List (Char × Char) :=
  AMINO_ACID_LETTERS.flatMap fun y => AMINO_ACID_LETTERS.map fun x => (x, y)

/-- `AMINO_ACID_PAIR_POSITIONS = dict((y, x) for x, y in
enumerate(AMINO_ACID_PAIRS))`: dictionary from a letter pair to its position
in `AMINO_ACID_PAIRS`; `none` models a `KeyError` on a missing key. -/
def AMINO_ACID_PAIR_POSITIONS (p : Char × Char) : Option ℕ :=
  AMINO_ACID_PAIRS.findIdx? fun q => decide (q = p)

/-- The inverse direction of the pair index: position `i` of the
`AMINO_ACID_PAIRS` list recovers the letter pair assigned index `i`. -/
def indexToPair (i : ℕ) : Option (Char × Char) :=
  AMINO_ACID_PAIRS[i]?

/-! ### Feature materialization (train.py `encode_inputs`, lines 44-58) -/

/-- `encode_inputs(X_pair_indices, pairwise_feature_vec)`: asserts that the
coefficient vector has length 20*20, then substitutes each index entry with
the referenced coefficient (`X_encoded[row, col] =
pairwise_feature_vec[xi]`).  The specification names both precondition
failures (assert on the length, and an out-of-range lookup)
`IndexOutOfRange`. -/
def encode_inputs (X_pair_indices : NatMatrix) (pairwise_feature_vec : List ℚ) :
    Except Err QMatrix :=
  if pairwise_feature_vec.length = 20 * 20 then
    exceptMap
      (fun row => exceptMap
        (fun xi =>
          match pairwise_feature_vec[xi]? with
          | some v => .ok v
          | none => .error Err.indexOutOfRange) row)
      X_pair_indices
  else .error Err.indexOutOfRange

/-! ### Coefficient accumulation (train.py `encode_pairwise_coefficients`,
lines 61-73) -/

/-- Number of columns of a 2-d array (`X.shape[1]`); meaningful on
rectangular non-empty matrices, which is what numpy guarantees. -/
def numCols (X : NatMatrix) : ℕ := (X.head?.map List.length).getD 0

/-- One `coeffs[row_idx, xi] += model_weights[col_idx]` update: the pair `p`
is `(xi, model_weights[col_idx])`. -/
def scatterStep (acc : List ℚ) (p : ℕ × ℚ) : List ℚ :=
  acc.set p.1 (acc.getD p.1 0 + p.2)

/-- The inner loop of `encode_pairwise_coefficients` for a single row:
starting from a row of 400 zeros, add each position's model weight into the
bucket its index entry points at. -/
def scatterAdd (row : List ℕ) (w : List ℚ) : List ℚ :=
  (row.zip w).foldl scatterStep (List.replicate (20 * 20) 0)

/-- `encode_pairwise_coefficients(X_idx, model_weights)`: asserts
`len(model_weights) == n_position_pairs` (else `DimensionMismatch`) and
`X_idx.max() < 400` (else `IndexOutOfRange`), then scatter-adds every
position's weight into an `n × 400` bucket matrix. -/
def encode_pairwise_coefficients (X_idx : NatMatrix) (model_weights : List ℚ) :
    Except Err QMatrix :=
  if model_weights.length = numCols X_idx then
    if X_idx.all (fun row => row.all fun xi => decide (xi < 20 * 20)) then
      .ok (X_idx.map fun row => scatterAdd row model_weights)
    else .error Err.indexOutOfRange
  else .error Err.dimensionMismatch

/-- `estimate_pairwise_features(X_idx, model_weights, Y)`: log-transform the
targets, build the accumulation matrix, and return the coefficients of a
ridge regression of the transformed targets on it.  `ridge` models
`sklearn.linear_model.Ridge().fit(C, Y).coef_` and `log` models `np.log`,
both external libraries. -/
def estimate_pairwise_features (ridge : QMatrix → List ℚ → List ℚ) (log : ℚ → ℚ)
    (X_idx : NatMatrix) (model_weights : List ℚ) (Y : List ℚ) :
    Except Err (List ℚ) := do
  let Ylog := Y.map log
  let C ← encode_pairwise_coefficients X_idx model_weights
  pure (ridge C Ylog)

/-! ### Properties of the pair index (claim C5) -/

theorem letters_nodup : AMINO_ACID_LETTERS.Nodup := by decide

set_option maxRecDepth 4000 in
theorem pairs_length : AMINO_ACID_PAIRS.length = 400 := by decide

theorem pairs_nodup : AMINO_ACID_PAIRS.Nodup := by
  rw [AMINO_ACID_PAIRS, List.nodup_flatMap]
  refine ⟨fun y _ => letters_nodup.map fun x1 x2 hx => congrArg Prod.fst hx, ?_⟩
  refine letters_nodup.imp ?_
  intro y1 y2 hne p hp1 hp2
  simp only [List.mem_map] at hp1 hp2
  obtain ⟨x1, _, rfl⟩ := hp1
  obtain ⟨x2, _, h2⟩ := hp2
  exact hne (congrArg Prod.snd h2.symm)

theorem findIdx?_nodup_aux {α : Type} [DecidableEq α] :
    ∀ (l : List α), l.Nodup → ∀ (i : ℕ) (h : i < l.length) (s : ℕ),
      l.findIdx? (fun q => decide (q = l[i])) s = some (s + i) := by
  intro l
  induction l with
  | nil => intro _ i h; exact absurd h (by simp)
  | cons a t ih =>
    intro hnd i h s
    cases i with
    | zero => simp [List.findIdx?_cons]
    | succ i =>
      have ht : t.Nodup := (List.nodup_cons.mp hnd).2
      have hat : a ∉ t := (List.nodup_cons.mp hnd).1
      have hi : i < t.length := by simpa using h
      have hne : a ≠ t[i] := fun heq => hat (heq ▸ List.getElem_mem hi)
      have hcast : ((a :: t)[i + 1] : α) = t[i] := by simp
      rw [hcast, List.findIdx?_cons, if_neg (by simpa using hne), ih ht i hi (s + 1)]
      congr 1
      omega

theorem pairPositions_getElem (i : ℕ) (h : i < AMINO_ACID_PAIRS.length) :
    AMINO_ACID_PAIR_POSITIONS AMINO_ACID_PAIRS[i] = some i := by
  simpa using findIdx?_nodup_aux AMINO_ACID_PAIRS pairs_nodup i h 0

/-- C5: the pair-to-index mapping assigns every ordered pair of the 20
amino-acid letters a unique index in `[0, 400)`, `indexToPair` inverts it
exactly, the 400 assigned indices are a permutation of `[0, 400)` (they are
exactly `0, 1, ..., 399` in the pair enumeration order), and the whole
mapping is pinned down by the deterministic sorted letter order. -/
theorem pair_index_bijection :
    AMINO_ACID_LETTERS =
      ['A', 'C', 'D', 'E', 'F', 'G', 'H', 'I', 'K', 'L',
       'M', 'N', 'P', 'Q', 'R', 'S', 'T', 'V', 'W', 'Y'] ∧
    List.Pairwise (· < ·) AMINO_ACID_LETTERS ∧
    AMINO_ACID_PAIRS.length = 400 ∧
    (∀ a ∈ AMINO_ACID_LETTERS, ∀ b ∈ AMINO_ACID_LETTERS,
      ∃ i, AMINO_ACID_PAIR_POSITIONS (a, b) = some i ∧ i < 400 ∧
        indexToPair i = some (a, b)) ∧
    AMINO_ACID_PAIRS.map (fun p => (AMINO_ACID_PAIR_POSITIONS p).getD 400) =
      List.range 400 := by
  refine ⟨by decide, by decide, pairs_length, ?_, ?_⟩
  · intro a ha b hb
    have hmem : (a, b) ∈ AMINO_ACID_PAIRS :=
      List.mem_flatMap.mpr ⟨b, hb, List.mem_map.mpr ⟨a, ha, rfl⟩⟩
    obtain ⟨i, hi, hget⟩ := List.mem_iff_getElem.mp hmem
    refine ⟨i, ?_, pairs_length ▸ hi, ?_⟩
    · rw [← hget]; exact pairPositions_getElem i hi
    · rw [indexToPair, List.getElem?_eq_getElem hi, hget]
  · apply List.ext_getElem?
    intro n
    rw [List.getElem?_map]
    by_cases hn : n < AMINO_ACID_PAIRS.length
    · rw [List.getElem?_eq_getElem hn,
        List.getElem?_range (by rw [← pairs_length]; exact hn)]
      simp [pairPositions_getElem n hn]
    · rw [List.getElem?_eq_none (by omega),
        List.getElem?_eq_none (by rw [List.length_range, ← pairs_length]; omega)]
      rfl

/-- Witness for C5: the pair ('A', 'C') has a concrete index that the
inverse mapping sends back to ('A', 'C'). -/
theorem pair_index_bijection_witness :
    ∃ i, AMINO_ACID_PAIR_POSITIONS ('A', 'C') = some i ∧ i < 400 ∧
      indexToPair i = some ('A', 'C') :=
  pair_index_bijection.2.2.2.1 'A' (by decide) 'C' (by decide)

/-! ### Helper lemmas about exceptMap, lookups and the scatter loop -/

theorem exceptMap_ok_or_error {α β : Type} (f : α → Except Err β) (e : Err) :
    ∀ l : List α, (∀ x ∈ l, (∃ b, f x = .ok b) ∨ f x = .error e) →
      (∃ bs, exceptMap f l = .ok bs) ∨ exceptMap f l = .error e := by
  intro l
  induction l with
  | nil => intro _; exact .inl ⟨[], rfl⟩
  | cons a t ih =>
    intro h
    rcases h a (List.mem_cons_self a t) with ⟨b, hb⟩ | hb
    · rcases ih (fun x hx => h x (List.mem_cons_of_mem a hx)) with ⟨bs, hbs⟩ | hbs
      · exact .inl ⟨b :: bs, by simp [exceptMap, hb, hbs, Except.bind, Except.map]⟩
      · exact .inr (by simp [exceptMap, hb, hbs, Except.bind, Except.map])
    · exact .inr (by simp [exceptMap, hb, Except.bind])

theorem encode_inputs_ok (X : NatMatrix) (coeff : List ℚ)
    (hlen : coeff.length = 400)
    (hvalid : ∀ row ∈ X, ∀ xi ∈ row, xi < 400) :
    encode_inputs X coeff =
      .ok (X.map fun row => row.map fun xi => coeff.getD xi 0) := by
  rw [encode_inputs, if_pos (by omega)]
  refine exceptMap_ok _ _ _ fun row hrow => ?_
  refine exceptMap_ok _ _ _ fun xi hxi => ?_
  have h40 : xi < coeff.length := by rw [hlen]; exact hvalid row hrow xi hxi
  rw [List.getElem?_eq_getElem h40]
  rw [List.getD_eq_getElem?_getD, List.getElem?_eq_getElem h40]
  rfl

theorem encode_inputs_idx_error (X : NatMatrix) (coeff : List ℚ)
    (hlen : coeff.length = 400)
    (hbad : ∃ row ∈ X, ∃ xi ∈ row, 400 ≤ xi) :
    encode_inputs X coeff = .error Err.indexOutOfRange := by
  rw [encode_inputs, if_pos (by omega)]
  have hstep : ∀ (xi : ℕ),
      (match coeff[xi]? with
        | some v => (Except.ok v : Except Err ℚ)
        | none => .error Err.indexOutOfRange) =
      if h : xi < coeff.length then .ok coeff[xi] else .error Err.indexOutOfRange := by
    intro xi
    by_cases h : xi < coeff.length
    · rw [List.getElem?_eq_getElem h, dif_pos h]
    · rw [List.getElem?_eq_none (by omega), dif_neg h]
  have hinner : ∀ row : List ℕ,
      (∃ bs, exceptMap (fun xi =>
        match coeff[xi]? with
        | some v => (Except.ok v : Except Err ℚ)
        | none => .error Err.indexOutOfRange) row = .ok bs) ∨
      exceptMap (fun xi =>
        match coeff[xi]? with
        | some v => (Except.ok v : Except Err ℚ)
        | none => .error Err.indexOutOfRange) row = .error Err.indexOutOfRange := by
    intro row
    refine exceptMap_ok_or_error _ _ row fun xi _ => ?_
    rw [hstep xi]
    by_cases h : xi < coeff.length
    · exact .inl ⟨coeff[xi], dif_pos h⟩
    · exact .inr (dif_neg h)
  obtain ⟨row, hrowX, xi, hxirow, hxi⟩ := hbad
  refine exceptMap_error _ _ _ (fun r _ => hinner r) ⟨row, hrowX, ?_⟩
  refine exceptMap_error _ _ _ (fun y _ => ?_) ⟨xi, hxirow, ?_⟩
  · rw [hstep y]
    by_cases h : y < coeff.length
    · exact .inl ⟨coeff[y], dif_pos h⟩
    · exact .inr (dif_neg h)
  · rw [hstep xi, dif_neg (by omega)]

theorem scatterFold_length :
    ∀ (l : List (ℕ × ℚ)) (acc : List ℚ), (l.foldl scatterStep acc).length = acc.length := by
  intro l
  induction l with
  | nil => intro acc; rfl
  | cons p t ih => intro acc; rw [List.foldl_cons, ih]; simp [scatterStep]

theorem getD_set_self (b : List ℚ) (i : ℕ) (x : ℚ) (h : i < b.length) :
    (b.set i x).getD i 0 = x := by
  rw [List.getD_eq_getElem?_getD, List.getElem?_set_self h]
  rfl

theorem getD_set_other (b : List ℚ) (i j : ℕ) (x : ℚ) (h : i ≠ j) :
    (b.set i x).getD j 0 = b.getD j 0 := by
  rw [List.getD_eq_getElem?_getD, List.getElem?_set_ne h, ← List.getD_eq_getElem?_getD]

theorem sum_set_add (b : List ℚ) (i : ℕ) (x : ℚ) (h : i < b.length) :
    (b.set i (b.getD i 0 + x)).sum = b.sum + x := by
  induction b generalizing i with
  | nil => exact absurd h (by simp)
  | cons c t ih =>
    cases i with
    | zero => simp [List.getD_cons_zero]; ring
    | succ i =>
      have hi : i < t.length := by simpa using h
      simp only [List.set_cons_succ, List.getD_cons_succ, List.sum_cons, ih i hi]
      ring

/-- The inner product of two equal-length real vectors. -/
def dot (a b : List ℚ) : ℚ := ((a.zip b).map fun p => p.1 * p.2).sum

theorem dot_nil_left (b : List ℚ) : dot [] b = 0 := rfl

theorem dot_cons (a : ℚ) (as : List ℚ) (b : ℚ) (bs : List ℚ) :
    dot (a :: as) (b :: bs) = a * b + dot as bs := by
  simp [dot]

theorem dot_set_add (a b : List ℚ) (i : ℕ) (x : ℚ)
    (hab : a.length = b.length) (h : i < b.length) :
    dot a (b.set i (b.getD i 0 + x)) = dot a b + a.getD i 0 * x := by
  induction a generalizing b i with
  | nil => rw [← hab] at h; exact absurd h (by simp)
  | cons c t ih =>
    cases b with
    | nil => exact absurd h (by simp)
    | cons d u =>
      cases i with
      | zero => simp [List.getD_cons_zero, dot_cons]; ring
      | succ i =>
        have hi : i < u.length := by simpa using h
        have hlen : t.length = u.length := by simpa using hab
        simp only [List.set_cons_succ, List.getD_cons_succ, dot_cons, ih u i hlen hi]
        ring

theorem sum_scatterFold :
    ∀ (l : List (ℕ × ℚ)) (acc : List ℚ), (∀ p ∈ l, p.1 < acc.length) →
      (l.foldl scatterStep acc).sum = acc.sum + (l.map Prod.snd).sum := by
  intro l
  induction l with
  | nil => intro acc _; simp
  | cons p t ih =>
    intro acc hvalid
    have hp := hvalid p (List.mem_cons_self p t)
    have hstep : (scatterStep acc p).sum = acc.sum + p.2 := sum_set_add acc p.1 p.2 hp
    have hlen : (scatterStep acc p).length = acc.length := by simp [scatterStep]
    rw [List.foldl_cons,
      ih (scatterStep acc p) (fun q hq => hlen ▸ hvalid q (List.mem_cons_of_mem p hq)),
      hstep]
    simp
    ring

theorem dot_scatterFold (coeff : List ℚ) :
    ∀ (l : List (ℕ × ℚ)) (acc : List ℚ), coeff.length = acc.length →
      (∀ p ∈ l, p.1 < acc.length) →
      dot coeff (l.foldl scatterStep acc) =
        dot coeff acc + (l.map fun p => coeff.getD p.1 0 * p.2).sum := by
  intro l
  induction l with
  | nil => intro acc _ _; simp
  | cons p t ih =>
    intro acc hca hvalid
    have hp := hvalid p (List.mem_cons_self p t)
    have hstep : dot coeff (scatterStep acc p) = dot coeff acc + coeff.getD p.1 0 * p.2 :=
      dot_set_add coeff acc p.1 p.2 hca hp
    have hlen : (scatterStep acc p).length = acc.length := by simp [scatterStep]
    rw [List.foldl_cons,
      ih (scatterStep acc p) (by rw [hca, hlen])
        (fun q hq => hlen ▸ hvalid q (List.mem_cons_of_mem p hq)),
      hstep]
    simp
    ring

theorem getD_scatterFold :
    ∀ (l : List (ℕ × ℚ)) (acc : List ℚ) (k : ℕ), k < acc.length →
      (∀ p ∈ l, p.1 < acc.length) →
      (l.foldl scatterStep acc).getD k 0 =
        acc.getD k 0 + ((l.filter fun p => decide (p.1 = k)).map Prod.snd).sum := by
  intro l
  induction l with
  | nil => intro acc k _ _; simp
  | cons p t ih =>
    intro acc k hk hvalid
    have hp := hvalid p (List.mem_cons_self p t)
    have hlen : (scatterStep acc p).length = acc.length := by simp [scatterStep]
    rw [List.foldl_cons,
      ih (scatterStep acc p) k (hlen ▸ hk)
        (fun q hq => hlen ▸ hvalid q (List.mem_cons_of_mem p hq))]
    by_cases hpk : p.1 = k
    · have : (scatterStep acc p).getD k 0 = acc.getD k 0 + p.2 := by
        rw [scatterStep, ← hpk, getD_set_self acc p.1 _ hp]
      rw [this, List.filter_cons_of_pos (by simp [hpk]), List.map_cons, List.sum_cons]
      ring
    · have : (scatterStep acc p).getD k 0 = acc.getD k 0 :=
        getD_set_other acc p.1 k _ hpk
      rw [this, List.filter_cons_of_neg (by simp [hpk])]

theorem scatterAdd_length (row : List ℕ) (w : List ℚ) :
    (scatterAdd row w).length = 400 := by
  rw [scatterAdd, scatterFold_length, List.length_replicate]

theorem scatterAdd_getD (row : List ℕ) (w : List ℚ) (k : ℕ) (hk : k < 400)
    (hvalid : ∀ xi ∈ row, xi < 400) :
    (scatterAdd row w).getD k 0 =
      (((row.zip w).filter fun p => decide (p.1 = k)).map Prod.snd).sum := by
  rw [scatterAdd,
    getD_scatterFold _ _ k (by rw [List.length_replicate]; omega)
      (fun p hp => by rw [List.length_replicate]; exact hvalid p.1 (List.of_mem_zip hp).1),
    List.getD_eq_getElem?_getD, List.getElem?_replicate, if_pos (by omega : k < 20 * 20)]
  simp only [Option.getD_some, zero_add]

theorem scatterAdd_sum (row : List ℕ) (w : List ℚ) (hlen : w.length ≤ row.length)
    (hvalid : ∀ xi ∈ row, xi < 400) :
    (scatterAdd row w).sum = w.sum := by
  rw [scatterAdd,
    sum_scatterFold _ _
      (fun p hp => by rw [List.length_replicate]; exact hvalid p.1 (List.of_mem_zip hp).1),
    List.map_snd_zip row w hlen, List.sum_replicate, smul_zero, zero_add]

theorem encode_pairwise_ok (X : NatMatrix) (w : List ℚ)
    (hlen : w.length = numCols X)
    (hvalid : ∀ row ∈ X, ∀ xi ∈ row, xi < 400) :
    encode_pairwise_coefficients X w = .ok (X.map fun row => scatterAdd row w) := by
  rw [encode_pairwise_coefficients, if_pos hlen, if_pos]
  rw [List.all_eq_true]
  intro row hrow
  rw [List.all_eq_true]
  intro xi hxi
  simpa using hvalid row hrow xi hxi

theorem numCols_eq (X : NatMatrix) (d : ℕ) (hX : X ≠ [])
    (hrect : ∀ row ∈ X, row.length = d) : numCols X = d := by
  cases X with
  | nil => exact absurd rfl hX
  | cons r t => simpa [numCols] using hrect r (List.mem_cons_self r t)

/-! ### Claims C6, C7 and C10: the materializer and the accumulation engine -/

/-- C6: with a 400-length coefficient vector and all index entries valid,
`encode_inputs` returns exactly the substitution matrix
`featureMatrix[r][c] = coeffVector[indexMatrix[r][c]]`; a wrong-length
coefficient vector or an out-of-range entry makes it fail with
`IndexOutOfRange`. -/
theorem materialize_contract (X : NatMatrix) (coeff : List ℚ) :
    (coeff.length = 400 → (∀ row ∈ X, ∀ xi ∈ row, xi < 400) →
      encode_inputs X coeff =
        .ok (X.map fun row => row.map fun xi => coeff.getD xi 0)) ∧
    (coeff.length ≠ 400 → encode_inputs X coeff = .error Err.indexOutOfRange) ∧
    (coeff.length = 400 → (∃ row ∈ X, ∃ xi ∈ row, 400 ≤ xi) →
      encode_inputs X coeff = .error Err.indexOutOfRange) := by
  refine ⟨fun hlen hvalid => encode_inputs_ok X coeff hlen hvalid, fun hlen => ?_,
    fun hlen hbad => encode_inputs_idx_error X coeff hlen hbad⟩
  rw [encode_inputs, if_neg (by omega)]

/-- Witness for C6: both branches of the contract at concrete inputs. -/
theorem materialize_contract_witness :
    encode_inputs [[0, 399]] (List.replicate 400 (7 : ℚ)) = .ok [[7, 7]] ∧
    encode_inputs [[5]] [] = .error Err.indexOutOfRange := by
  constructor
  · have h := (materialize_contract [[0, 399]] (List.replicate 400 (7 : ℚ))).1
      (by rw [List.length_replicate]) (by decide)
    rw [h]
    rfl
  · exact (materialize_contract [[5]] []).2.1 (by decide)

/-- C7: under the checked preconditions the re-estimation engine applies
the log transform to the targets and hands the ridge regression the
accumulation matrix whose row entries are the sums of the position weights
scattered into each bucket; violating the length precondition fails with
`DimensionMismatch`, violating the index-range precondition fails with
`IndexOutOfRange`. -/
theorem reestimate_contract (ridge : QMatrix → List ℚ → List ℚ) (log : ℚ → ℚ)
    (X : NatMatrix) (w : List ℚ) (Y : List ℚ) :
    (w.length = numCols X → (∀ row ∈ X, ∀ xi ∈ row, xi < 400) →
      estimate_pairwise_features ridge log X w Y =
        .ok (ridge (X.map fun row => scatterAdd row w) (Y.map log)) ∧
      ∀ row ∈ X, ∀ k, k < 400 →
        (scatterAdd row w).getD k 0 =
          (((row.zip w).filter fun p => decide (p.1 = k)).map Prod.snd).sum) ∧
    (w.length ≠ numCols X →
      estimate_pairwise_features ridge log X w Y = .error Err.dimensionMismatch) ∧
    (w.length = numCols X → (∃ row ∈ X, ∃ xi ∈ row, 400 ≤ xi) →
      estimate_pairwise_features ridge log X w Y = .error Err.indexOutOfRange) := by
  refine ⟨fun hlen hvalid => ⟨?_, ?_⟩, fun hlen => ?_, fun hlen hbad => ?_⟩
  · rw [estimate_pairwise_features, encode_pairwise_ok X w hlen hvalid]
    rfl
  · intro row hrow k hk
    exact scatterAdd_getD row w k hk (hvalid row hrow)
  · rw [estimate_pairwise_features, encode_pairwise_coefficients, if_neg hlen]
    rfl
  · obtain ⟨row, hrowX, xi, hxirow, hxi⟩ := hbad
    rw [estimate_pairwise_features, encode_pairwise_coefficients, if_pos hlen, if_neg]
    · rfl
    · intro hall
      rw [List.all_eq_true] at hall
      have := hall row hrowX
      rw [List.all_eq_true] at this
      have := this xi hxirow
      simp only [decide_eq_true_eq] at this
      omega

/-- Witness for C7: the three branches of the contract at concrete
inputs (the ridge step and the log transform are instantiated with
explicit functions). -/
theorem reestimate_contract_witness :
    (estimate_pairwise_features (fun C Y => Y ++ C.flatten) (fun y => y + 1)
        [[1, 1]] [2, 5] [4] =
      .ok ((fun (C : QMatrix) (Y : List ℚ) => Y ++ C.flatten)
        ([[1, 1]].map fun row => scatterAdd row [2, 5]) ([4].map fun y => y + 1))) ∧
    (estimate_pairwise_features (fun _ Y => Y) (fun y => y) [[1, 1]] [2] [4] =
      .error Err.dimensionMismatch) ∧
    (estimate_pairwise_features (fun _ Y => Y) (fun y => y) [[400, 1]] [2, 5] [4] =
      .error Err.indexOutOfRange) := by
  refine ⟨((reestimate_contract (fun C Y => Y ++ C.flatten) (fun y => y + 1)
      [[1, 1]] [2, 5] [4]).1 (by decide) (by decide)).1, ?_, ?_⟩
  · exact (reestimate_contract (fun _ Y => Y) (fun y => y) [[1, 1]] [2] [4]).2.1
      (by decide)
  · exact (reestimate_contract (fun _ Y => Y) (fun y => y) [[400, 1]] [2, 5] [4]).2.2
      (by decide) ⟨[400, 1], by decide, 400, by decide, by decide⟩

/-- C10: on valid inputs every row of the accumulation matrix sums to the
total of the position weights: each column deposits its weight into exactly
one bucket of its row. -/
theorem accumulation_row_sums (X : NatMatrix) (w : List ℚ) (d : ℕ)
    (hX : X ≠ []) (hrect : ∀ row ∈ X, row.length = d) (hw : w.length = d)
    (hvalid : ∀ row ∈ X, ∀ xi ∈ row, xi < 400) :
    ∃ C, encode_pairwise_coefficients X w = .ok C ∧
      ∀ rowC ∈ C, rowC.sum = w.sum := by
  refine ⟨_, encode_pairwise_ok X w (by rw [hw, numCols_eq X d hX hrect]) hvalid, ?_⟩
  intro rowC hrowC
  obtain ⟨row, hrow, rfl⟩ := List.mem_map.mp hrowC
  exact scatterAdd_sum row w (by rw [hw, ← hrect row hrow]) (hvalid row hrow)

/-- Witness for C10: a concrete 2-by-2 index matrix whose accumulation
rows each sum to the total weight 7. -/
theorem accumulation_row_sums_witness :
    ∃ C, encode_pairwise_coefficients [[1, 2], [3, 3]] [2, 5] = .ok C ∧
      ∀ rowC ∈ C, rowC.sum = [(2 : ℚ), 5].sum :=
  accumulation_row_sums [[1, 2], [3, 3]] [2, 5] 2 (by decide)
    (by decide) (by decide) (by decide)

/-! ### Claim C4: materialization and accumulation are adjoint -/

/-- Inner product of a feature matrix with a position-weight vector
broadcast over its rows. -/
def matDotBroadcast (M : QMatrix) (w : List ℚ) : ℚ :=
  (M.map fun row => dot row w).sum

/-- Column sums of the n-by-400 accumulation matrix. -/
def colSums (M : QMatrix) : List ℚ :=
  M.foldl (fun acc row => acc.zipWith (· + ·) row) (List.replicate 400 0)

theorem dot_replicate_zero (a : List ℚ) : ∀ n : ℕ, dot a (List.replicate n 0) = 0 := by
  induction a with
  | nil => intro n; rfl
  | cons c t ih =>
    intro n
    cases n with
    | zero => rfl
    | succ n => rw [List.replicate_succ, dot_cons, ih n]; ring

theorem dot_zipWith_add :
    ∀ a b c : List ℚ, a.length = b.length → b.length = c.length →
      dot a (b.zipWith (· + ·) c) = dot a b + dot a c := by
  intro a
  induction a with
  | nil => intro b c _ _; simp [dot]
  | cons x t ih =>
    intro b c hab hbc
    cases b with
    | nil => simp at hab
    | cons y u =>
      cases c with
      | nil => simp at hbc
      | cons z v =>
        rw [List.zipWith_cons_cons, dot_cons, dot_cons, dot_cons,
          ih u v (by simpa using hab) (by simpa using hbc)]
        ring

theorem dot_colSumsFold (coeff : List ℚ) (hc : coeff.length = 400) :
    ∀ (rows : QMatrix) (acc : List ℚ), acc.length = 400 →
      (∀ r ∈ rows, r.length = 400) →
      dot coeff (rows.foldl (fun acc row => acc.zipWith (· + ·) row) acc) =
        dot coeff acc + (rows.map fun r => dot coeff r).sum := by
  intro rows
  induction rows with
  | nil => intro acc _ _; simp
  | cons r t ih =>
    intro acc hacc hrows
    have hr : r.length = 400 := hrows r (List.mem_cons_self r t)
    have hzip : (acc.zipWith (· + ·) r).length = 400 := by
      rw [List.length_zipWith, hacc, hr]
      exact min_self 400
    rw [List.foldl_cons, ih (acc.zipWith (· + ·) r) hzip
        (fun q hq => hrows q (List.mem_cons_of_mem r hq)),
      dot_zipWith_add coeff acc r (by omega) (by omega)]
    simp only [List.map_cons, List.sum_cons]
    ring

theorem dot_materialize_row (coeff : List ℚ) (row : List ℕ) (w : List ℚ)
    (hc : coeff.length = 400) (hvalid : ∀ xi ∈ row, xi < 400) :
    dot (row.map fun xi => coeff.getD xi 0) w = dot coeff (scatterAdd row w) := by
  rw [scatterAdd,
    dot_scatterFold coeff _ _ (by rw [hc, List.length_replicate])
      (fun p hp => by rw [List.length_replicate]; exact hvalid p.1 (List.of_mem_zip hp).1),
    dot_replicate_zero, zero_add, dot, List.zip_map_left, List.map_map]
  rfl

/-- C4: the inner product of the materialized feature matrix with the
broadcast position weights equals the inner product of the coefficient
vector with the column sums of the accumulation matrix — materialization
and accumulation are adjoint (transpose) operations. -/
theorem materialize_reestimate_adjoint (X : NatMatrix) (coeff w : List ℚ) (d : ℕ)
    (hX : X ≠ []) (hrect : ∀ row ∈ X, row.length = d)
    (hc : coeff.length = 400) (hw : w.length = d)
    (hvalid : ∀ row ∈ X, ∀ xi ∈ row, xi < 400) :
    ∃ M C, encode_inputs X coeff = .ok M ∧
      encode_pairwise_coefficients X w = .ok C ∧
      matDotBroadcast M w = dot coeff (colSums C) := by
  refine ⟨_, _, encode_inputs_ok X coeff hc hvalid,
    encode_pairwise_ok X w (by rw [hw, numCols_eq X d hX hrect]) hvalid, ?_⟩
  rw [matDotBroadcast, colSums,
    dot_colSumsFold coeff hc _ _ (by rw [List.length_replicate])
      (fun r hr => by
        obtain ⟨row, _, rfl⟩ := List.mem_map.mp hr
        exact scatterAdd_length row w),
    dot_replicate_zero, zero_add, List.map_map, List.map_map]
  refine congrArg List.sum (List.map_congr_left fun row hrow => ?_)
  exact dot_materialize_row coeff row w hc (hvalid row hrow)

/-- Witness for C4: the adjoint identity at a concrete index matrix,
coefficient vector and weight vector. -/
theorem materialize_reestimate_adjoint_witness :
    ∃ M C, encode_inputs [[0, 1]] (List.replicate 400 (3 : ℚ)) = .ok M ∧
      encode_pairwise_coefficients [[0, 1]] [1, 2] = .ok C ∧
      matDotBroadcast M [1, 2] = dot (List.replicate 400 (3 : ℚ)) (colSums C) :=
  materialize_reestimate_adjoint [[0, 1]] (List.replicate 400 (3 : ℚ)) [1, 2] 2
    (by decide) (by decide) (by rw [List.length_replicate]) (by decide) (by decide)

/-! ### Claim C9: the window encoder (train.py lines 151-156) -/

/-- The window encoding comprehension from `generate_training_data`:
`vec = [AMINO_ACID_PAIR_POSITIONS[peptide_letter + mhc_letter] for
peptide_letter in peptide[start_pos:stop_pos] for mhc_letter in
allele_seq]` — peptide positions vary in the outer loop, MHC positions in
the inner loop.  A letter pair outside the dictionary raises `KeyError`,
the specification's `UnknownSymbol`. -/
def encodeWindow (window mhc : List Char) : Except Err (List ℕ) :=
  exceptMap
    (fun pm =>
      match AMINO_ACID_PAIR_POSITIONS pm with
      | some i => .ok i
      | none => .error Err.unknownSymbol)
    (window.flatMap fun p => mhc.map fun m => (p, m))

theorem pairPositions_mem (a b : Char)
    (ha : a ∈ AMINO_ACID_LETTERS) (hb : b ∈ AMINO_ACID_LETTERS) :
    ∃ i, AMINO_ACID_PAIR_POSITIONS (a, b) = some i ∧ i < 400 ∧
      AMINO_ACID_PAIRS[i]? = some (a, b) := by
  have hmem : (a, b) ∈ AMINO_ACID_PAIRS :=
    List.mem_flatMap.mpr ⟨b, hb, List.mem_map.mpr ⟨a, ha, rfl⟩⟩
  obtain ⟨i, hi, hget⟩ := List.mem_iff_getElem.mp hmem
  refine ⟨i, ?_, pairs_length ▸ hi, ?_⟩
  · rw [← hget]; exact pairPositions_getElem i hi
  · rw [List.getElem?_eq_getElem hi, hget]

theorem flatMap_map_length {α β γ : Type} (g : α → β → γ) (mhc : List β) :
    ∀ l : List α, (l.flatMap fun p => mhc.map (g p)).length = l.length * mhc.length := by
  intro l
  induction l with
  | nil => simp
  | cons p t ih =>
    rw [List.flatMap_cons, List.length_append, List.length_map, ih, List.length_cons]
    ring

theorem getElem?_flatMap_map {α β γ : Type} (g : α → β → γ) (mhc : List β)
    (da : α) (db : β) :
    ∀ (l : List α) (i j : ℕ), i < l.length → j < mhc.length →
      (l.flatMap fun p => mhc.map (g p))[i * mhc.length + j]? =
        some (g (l.getD i da) (mhc.getD j db)) := by
  intro l
  induction l with
  | nil => intro i j hi _; exact absurd hi (by simp)
  | cons p t ih =>
    intro i j hi hj
    rw [List.flatMap_cons]
    cases i with
    | zero =>
      rw [Nat.zero_mul, Nat.zero_add, List.getElem?_append,
        if_pos (by rw [List.length_map]; exact hj),
        List.getElem?_map, List.getElem?_eq_getElem hj]
      rw [List.getD_cons_zero, List.getD_eq_getElem?_getD, List.getElem?_eq_getElem hj]
      rfl
    | succ i =>
      have harith : (i + 1) * mhc.length + j =
          (mhc.map (g p)).length + (i * mhc.length + j) := by
        rw [List.length_map]; ring
      rw [harith, List.getElem?_append_right (Nat.le_add_right _ _),
        Nat.add_sub_cancel_left, ih i j (by simpa using hi) hj,
        List.getD_cons_succ]

theorem encodeWindow_ok (window mhc : List Char)
    (hwin : ∀ c ∈ window, c ∈ AMINO_ACID_LETTERS)
    (hmhc : ∀ c ∈ mhc, c ∈ AMINO_ACID_LETTERS) :
    encodeWindow window mhc =
      .ok (window.flatMap fun p => mhc.map fun m =>
        (AMINO_ACID_PAIR_POSITIONS (p, m)).getD 400) := by
  rw [encodeWindow,
    exceptMap_ok _ (fun pm => (AMINO_ACID_PAIR_POSITIONS pm).getD 400) _ ?_]
  · rw [List.map_flatMap]
    simp only [List.map_map]
    rfl
  · intro pm hpm
    obtain ⟨p, hp, hm⟩ := List.mem_flatMap.mp hpm
    obtain ⟨m, hmm, rfl⟩ := List.mem_map.mp hm
    obtain ⟨i, hsome, _, _⟩ := pairPositions_mem p m (hwin p hp) (hmhc m hmm)
    simp [hsome]

/-- C9: encoding a window against an MHC pseudosequence of length L yields
one index vector of length `(window length) * L` whose `(i*L + j)`-th entry
is the pair index of `(window[i], mhc[j])` — MHC positions are the inner
loop; and the 2-letter toy example "AC" against MHC "CA" produces exactly
`[pairIndex(A,C), pairIndex(A,A), pairIndex(C,C), pairIndex(C,A)]`. -/
theorem encode_layout (window mhc : List Char)
    (hwin9 : window.length = 9)
    (hwin : ∀ c ∈ window, c ∈ AMINO_ACID_LETTERS)
    (hmhc : ∀ c ∈ mhc, c ∈ AMINO_ACID_LETTERS) :
    (∃ v, encodeWindow window mhc = .ok v ∧ v.length = 9 * mhc.length ∧
      ∀ i j, i < 9 → j < mhc.length →
        v[i * mhc.length + j]? =
          AMINO_ACID_PAIR_POSITIONS (window.getD i 'A', mhc.getD j 'A')) ∧
    encodeWindow ['A', 'C'] ['C', 'A'] =
      .ok [(AMINO_ACID_PAIR_POSITIONS ('A', 'C')).getD 400,
        (AMINO_ACID_PAIR_POSITIONS ('A', 'A')).getD 400,
        (AMINO_ACID_PAIR_POSITIONS ('C', 'C')).getD 400,
        (AMINO_ACID_PAIR_POSITIONS ('C', 'A')).getD 400] := by
  constructor
  · refine ⟨_, encodeWindow_ok window mhc hwin hmhc, ?_, ?_⟩
    · rw [flatMap_map_length, hwin9]
    · intro i j hi hj
      rw [getElem?_flatMap_map _ mhc 'A' 'A' window i j (by omega) hj]
      have hwmem : window.getD i 'A' ∈ window := by
        rw [List.getD_eq_getElem?_getD, List.getElem?_eq_getElem (by omega)]
        exact List.getElem_mem _
      have hmmem : mhc.getD j 'A' ∈ mhc := by
        rw [List.getD_eq_getElem?_getD, List.getElem?_eq_getElem hj]
        exact List.getElem_mem _
      obtain ⟨k, hsome, _, _⟩ :=
        pairPositions_mem _ _ (hwin _ hwmem) (hmhc _ hmmem)
      rw [hsome]
      rfl
  · rw [encodeWindow_ok ['A', 'C'] ['C', 'A'] (by decide) (by decide)]
    rfl

/-- Witness for C9: a concrete all-alanine window of length 9 against a
one-letter pseudosequence. -/
theorem encode_layout_witness :
    ∃ v, encodeWindow (List.replicate 9 'A') ['C'] = .ok v ∧
      v.length = 9 * (List.length ['C']) ∧
      ∀ i j, i < 9 → j < (List.length ['C']) →
        v[i * (List.length ['C']) + j]? =
          AMINO_ACID_PAIR_POSITIONS ((List.replicate 9 'A').getD i 'A',
            (['C']).getD j 'A') :=
  (encode_layout (List.replicate 9 'A') ['C'] (by decide) (by decide) (by decide)).1

/-! ### Claim C2: the sliding-window training-data generation
(train.py lines 95-98 and 143-159) -/

/-- The per-peptide window loop of `generate_training_data` (lines
151-159): for each window start offset the index vector is computed and
`X.append`/`Y.append` succeed, after which the statement
`weight = 1.0 / (n_letters - 8)` executes.  The name `n_letters` is not
defined anywhere in the module (the enclosing function defines
`n_peptide_letters` and `n_mhc_letters`), so the first window of every
peptide raises a `NameError`; a sample therefore never reaches the output
lists, whose would-be entries are `(index vector, IC50, weight)`. -/
def generatePeptideSamples (peptide mhc : List Char) (ic50 : ℚ) :
    Except Err (List (List ℕ × ℚ × ℚ)) :=
  (List.range (peptide.length - 8)).foldlM
    (fun _acc start_pos =>
      (encodeWindow ((peptide.drop start_pos).take 9) mhc).bind
        fun _vec => .error Err.nameError)
    ([] : List (List ℕ × ℚ × ℚ))

/-- The dataset filter and generation loop of `generate_training_data`:
`rows` holds (Epitope, IC50) pairs for a single allele with known
pseudosequence `mhc` (CSV parsing, allele normalization and deduplication
are out-of-scope external producers).  Line 95 keeps only epitopes of
length exactly 9 (while the adjacent log message claims "length >= 9"),
line 96 keeps IC50 <= 10^6; every kept peptide then runs the window
loop. -/
def generate_training_data (rows : List (List Char × ℚ)) (mhc : List Char) :
    Except Err (List (List ℕ × ℚ × ℚ)) :=
  (rows.filter fun r => r.1.length == 9 && decide (r.2 ≤ 10 ^ 6)).foldlM
    (fun acc r =>
      (generatePeptideSamples r.1 mhc r.2).map fun s => acc ++ s)
    ([] : List (List ℕ × ℚ × ℚ))

/-- C2 fails on the code twice over: a peptide of length 12 is dropped by
the `length == 9` filter (0 emitted samples, not the claimed 4 windows of
weight 0.25), and a peptide that does pass the filter crashes the window
loop with a `NameError` (`n_letters` is undefined) before any weight is
recorded. -/
theorem generate_training_data_bug :
    generate_training_data [(List.replicate 12 'A', 100)] ['A'] = .ok [] ∧
    generate_training_data [(List.replicate 9 'A', 100)] ['A'] =
      .error Err.nameError := by
  exact ⟨rfl, rfl⟩

/-! ### Claim C8: the two-stage classifier + regressor
(train.py `TwoPassRegressor`, lines 183-214) -/

/-- Truncation toward zero, modelling numpy's `.astype('int')` on a float
value. -/
def truncToInt (q : ℚ) : ℤ := if q < 0 then -⌊-q⌋ else ⌊q⌋

/-- The category discretization of `TwoPassRegressor.fit`:
`np.maximum(0, (np.log10(Y) / np.log10(50)).astype('int'))`.  `log50`
models the external numpy expression `log10(y) / log10(50)`; the clamp to
0 makes the categories natural numbers. -/
def categories (log50 : ℚ → ℚ) (Y : List ℚ) : List ℕ :=
  Y.map fun y => (max 0 (truncToInt (log50 y))).toNat

/-- Boolean-mask row selection, `X[mask]`. -/
def maskSelect {α : Type} (xs : List α) (mask : List Bool) : List α :=
  ((xs.zip mask).filter fun p => p.2).map fun p => p.1

/-- `np.unique` over a list of category numbers: the sorted list of
distinct values present (every value is ≤ the running maximum, so
filtering the range below it is exact). -/
def uniqueSorted (cats : List ℕ) : List ℕ :=
  (List.range (cats.foldl max 0 + 1)).filter fun c => cats.contains c

/-- `TwoPassRegressor.fit(X, Y)`: discretize the targets into categories,
fit the first-stage classifier (an external sklearn RandomForest, not
modelled here — prediction consumes it through the `classify` parameter),
allocate `[None] * (max(categories) + 1)` regressor slots, and fit one
ridge regressor per occurring category on the log-transformed targets of
that category's samples.  `ridgeCV` models
`sklearn.linear_model.RidgeCV().fit(...)` returning an opaque fitted
regressor of type `Reg`; `log` models `np.log`. -/
def twoPassFit {Reg : Type} (ridgeCV : QMatrix → List ℚ → Reg)
    (log : ℚ → ℚ) (log50 : ℚ → ℚ) (X : QMatrix) (Y : List ℚ) :
    List (Option Reg) :=
  let cats := categories log50 Y
  let Ylog := Y.map log
  (uniqueSorted cats).foldl
    (fun regs cat =>
      let mask := cats.map fun c => decide (c = cat)
      regs.set cat (some (ridgeCV (maskSelect X mask) (maskSelect Ylog mask))))
    (List.replicate (cats.foldl max 0 + 1) none)

/-- `combined[mask] = pred`: write the predictions into the masked
positions in order, leaving unmasked positions unchanged. -/
def scatterMask : List ℚ → List Bool → List ℚ → List ℚ
  | [], _, _ => []
  | c :: cs, false :: ms, ps => c :: scatterMask cs ms ps
  | _ :: cs, true :: ms, p :: ps => p :: scatterMask cs ms ps
  | c :: cs, true :: ms, [] => c :: scatterMask cs ms []
  | c :: cs, [], ps => c :: scatterMask cs [] ps

/-- `TwoPassRegressor.predict(X)`: classify every row with the first-pass
classifier, then for each predicted category run that category's regressor
on the masked rows, write the results into `combined`, and exponentiate.
`classify` models the fitted classifier's per-row prediction, `expQ`
models `np.exp`, `regPredict` models `fitted.predict`.  A predicted
category whose slot is `None` or past the end of the list raises
(modelled as `IndexOutOfRange`). -/
def twoPassPredict {Reg : Type} (classify : List ℚ → ℕ) (expQ : ℚ → ℚ)
    (regPredict : Reg → QMatrix → List ℚ) (regressors : List (Option Reg))
    (X : QMatrix) : Except Err (List ℚ) :=
  let cats := X.map classify
  ((uniqueSorted cats).foldlM
    (fun (combined : List ℚ) cat =>
      match regressors[cat]? with
      | some (some r) =>
          let mask := cats.map fun c => decide (c = cat)
          Except.ok (scatterMask combined mask (regPredict r (maskSelect X mask)))
      | _ => Except.error Err.indexOutOfRange)
    (List.replicate cats.length 0)).map
    fun (combined : List ℚ) => combined.map expQ

theorem max_trunc_eq_max_floor (q : ℚ) : max 0 (truncToInt q) = max 0 ⌊q⌋ := by
  rw [truncToInt]
  by_cases h : q < 0
  · rw [if_pos h]
    have h1 : ⌊q⌋ ≤ 0 := by
      have := Int.floor_le_floor (le_of_lt h)
      simpa using this
    have h2 : -⌊-q⌋ ≤ 0 := by
      have : (0 : ℤ) ≤ ⌊-q⌋ := Int.floor_nonneg.mpr (by linarith)
      omega
    rw [max_eq_left h2, max_eq_left h1]
  · rw [if_neg h]

theorem init_le_foldl_max : ∀ (l : List ℕ) (a : ℕ), a ≤ l.foldl max a := by
  intro l
  induction l with
  | nil => intro a; exact le_refl a
  | cons d t ih =>
    intro a
    rw [List.foldl_cons]
    exact le_trans (le_max_left a d) (ih (max a d))

theorem le_foldl_max_mem : ∀ (l : List ℕ) (a c : ℕ), c ∈ l → c ≤ l.foldl max a := by
  intro l
  induction l with
  | nil => intro a c hc; exact absurd hc (List.not_mem_nil c)
  | cons b t ih =>
    intro a c hc
    rw [List.foldl_cons]
    rcases List.mem_cons.mp hc with rfl | hc'
    · exact le_trans (le_max_right a c) (init_le_foldl_max t (max a c))
    · exact ih (max a b) c hc'

theorem foldl_max_le : ∀ (l : List ℕ) (a b : ℕ), a ≤ b → (∀ c ∈ l, c ≤ b) →
    l.foldl max a ≤ b := by
  intro l
  induction l with
  | nil => intro a b hab _; exact hab
  | cons d t ih =>
    intro a b hab hall
    rw [List.foldl_cons]
    exact ih (max a d) b (max_le hab (hall d (List.mem_cons_self d t)))
      fun c hc => hall c (List.mem_cons_of_mem d hc)

/-- Replacing the category-1 regressor slot never changes the prediction
of a single sample the classifier places in category 0. -/
theorem twoPassPredict_cat0_ignores_cat1 {Reg : Type} (classify : List ℚ → ℕ)
    (expQ : ℚ → ℚ) (regPredict : Reg → QMatrix → List ℚ)
    (regs : List (Option Reg)) (o : Option Reg) (x : List ℚ)
    (hx : classify x = 0) :
    twoPassPredict classify expQ regPredict regs [x] =
      twoPassPredict classify expQ regPredict (regs.set 1 o) [x] := by
  simp only [twoPassPredict, List.map_cons, List.map_nil, hx]
  have hu : uniqueSorted [0] = [0] := rfl
  rw [hu]
  simp only [List.foldlM_cons, List.foldlM_nil]
  rw [List.getElem?_set_ne (by omega : (1 : ℕ) ≠ 0)]

/-- C8: the two-stage regressor discretizes targets with
`max(0, floor(log50 Y))` (numpy's truncation agrees with the floor after
the clamp to 0), trains exactly one ridge regressor for each of the two
occurring categories 0 and 1, and predicting a sample classified into
category 0 never consults category 1's regressor slot. -/
theorem two_pass_regressor {Reg : Type} (ridgeCV : QMatrix → List ℚ → Reg)
    (log log50 : ℚ → ℚ) (expQ : ℚ → ℚ) (regPredict : Reg → QMatrix → List ℚ)
    (classify : List ℚ → ℕ) (X : QMatrix) (Y : List ℚ)
    (h0 : 0 ∈ categories log50 Y) (h1 : 1 ∈ categories log50 Y)
    (hle : ∀ c ∈ categories log50 Y, c ≤ 1) :
    categories log50 Y = Y.map (fun y => (max 0 ⌊log50 y⌋).toNat) ∧
    (∃ r0 r1 : Reg, twoPassFit ridgeCV log log50 X Y = [some r0, some r1]) ∧
    (∀ (x : List ℚ) (o : Option Reg), classify x = 0 →
      twoPassPredict classify expQ regPredict (twoPassFit ridgeCV log log50 X Y) [x] =
        twoPassPredict classify expQ regPredict
          ((twoPassFit ridgeCV log log50 X Y).set 1 o) [x]) := by
  have hmax : (categories log50 Y).foldl max 0 = 1 :=
    le_antisymm (foldl_max_le _ 0 1 (by omega) hle)
      (le_foldl_max_mem _ 0 1 h1)
  have huniq : uniqueSorted (categories log50 Y) = [0, 1] := by
    rw [uniqueSorted, hmax]
    have hr : List.range (1 + 1) = [0, 1] := by decide
    rw [hr]
    have hc0 : (categories log50 Y).contains 0 = true := List.elem_iff.mpr h0
    have hc1 : (categories log50 Y).contains 1 = true := List.elem_iff.mpr h1
    rw [List.filter_cons_of_pos hc0, List.filter_cons_of_pos hc1]
    rfl
  refine ⟨?_, ?_, ?_⟩
  · simp only [categories, max_trunc_eq_max_floor]
  · have hfit : twoPassFit ridgeCV log log50 X Y =
        [some (ridgeCV
            (maskSelect X ((categories log50 Y).map fun c => decide (c = 0)))
            (maskSelect (Y.map log) ((categories log50 Y).map fun c => decide (c = 0)))),
          some (ridgeCV
            (maskSelect X ((categories log50 Y).map fun c => decide (c = 1)))
            (maskSelect (Y.map log) ((categories log50 Y).map fun c => decide (c = 1))))] := by
      simp only [twoPassFit, huniq, hmax]
      rfl
    exact ⟨_, _, hfit⟩
  · intro x o hx
    exact twoPassPredict_cat0_ignores_cat1 classify expQ regPredict _ o x hx

/-- Witness for C8: a concrete two-sample training set whose targets fall
in categories 0 and 1, with explicit stand-ins for the external sklearn
and numpy functions; exactly two regressors are fitted. -/
theorem two_pass_regressor_witness :
    ∃ r0 r1 : Unit,
      twoPassFit (fun _ _ => ()) (fun y => y)
        (fun y => if y ≤ 1 then (0 : ℚ) else 1) [[1], [2]] [1, 60] =
        [some r0, some r1] :=
  (two_pass_regressor (fun _ _ => ()) (fun y => y)
    (fun y => if y ≤ 1 then (0 : ℚ) else 1) (fun y => y)
    (fun _ M => M.map fun _ => 0) (fun _ => 0) [[1], [2]] [1, 60]
    (by norm_num [categories, truncToInt])
    (by norm_num [categories, truncToInt])
    (by norm_num [categories, truncToInt])).2.1

/-! ### Claims C1 and C3: the cross-validation harness and its refinement
loop (train.py `cross_validation`, lines 252-334) -/

/-- An sklearn regression model (`RidgeCV` in the source), seen through
the two ways `cross_validation` consumes it: `coef F Y W` is `coef_` after
`model.fit(F, Y, W)`, and `predict F Y W T` is `model.predict(T)` after
the same fit.  sklearn fitting is deterministic in its inputs, so both are
plain functions of the fit arguments. -/
structure SkModel where
  coef : QMatrix → List ℚ → List ℚ → List ℚ
  predict : QMatrix → List ℚ → List ℚ → QMatrix → List ℚ

/-- The argument triple of one `model.fit(X_train, Y_train, W_train)`
call. -/
structure FitCall where
  features : QMatrix
  targets : List ℚ
  weights : List ℚ

/-- `split(data, start, stop)` from train.py lines 217-223: train gets
`data[:start] + data[stop:]`, test gets `data[start:stop]`. -/
def split {α : Type} (data : List α) (start stop : ℕ) : List α × List α :=
  (data.take start ++ data.drop stop, (data.drop start).take (stop - start))

/-- `np.sum(np.abs(pred - Y_test) * W_test) / np.sum(W_test)`: the
weighted mean absolute error computed for each fold. -/
def weightedMAE (pred Y W : List ℚ) : ℚ :=
  ((((pred.zip Y).map fun p => |p.1 - p.2|).zip W).map fun p => p.1 * p.2).sum / W.sum

/-- `np.mean` of a list. -/
def npMean (l : List ℚ) : ℚ := l.sum / l.length

/-- The inner refinement loop of `cross_validation` (lines 292-329), run
with `iters` iterations remaining: materialize train and test features
from the current coefficient vector, fit the model (the call is recorded
in the returned trace), predict the test fold, compute `split_error`, and
on every iteration except the last re-estimate the coefficient vector
from the fitted model's `coef_`.  Returns the trace of fit calls and the
`split_error` of the final iteration (`none` when no iteration ran, i.e.
the Python variable would be unbound). -/
def refineIters (m : SkModel) (ridge : QMatrix → List ℚ → List ℚ) (log : ℚ → ℚ)
    (X_train_idx X_test_idx : NatMatrix) (Y_train W_train Y_test W_test : List ℚ) :
    ℕ → List ℚ → Except Err (List FitCall × Option ℚ)
  | 0, _ => .ok ([], none)
  | k + 1, coeff_vec =>
    (encode_inputs X_train_idx coeff_vec).bind fun X_train =>
    (encode_inputs X_test_idx coeff_vec).bind fun X_test =>
      let call : FitCall := ⟨X_train, Y_train, W_train⟩
      let pred := m.predict X_train Y_train W_train X_test
      let split_error := weightedMAE pred Y_test W_test
      if k = 0 then .ok ([call], some split_error)
      else
        (estimate_pairwise_features ridge log X_train_idx
            (m.coef X_train Y_train W_train) Y_train).bind fun coeff2 =>
          (refineIters m ridge log X_train_idx X_test_idx Y_train W_train
              Y_test W_test k coeff2).map
            fun res => (call :: res.1, res.2)

/-- One fold of `cross_validation`: compute the contiguous test slice,
split the arrays, reset the coefficient vector to the pmbec reference
vector, and run the 5-iteration refinement loop; the fold's error is the
final iteration's `split_error`. -/
def foldError (m : SkModel) (ridge : QMatrix → List ℚ → List ℚ) (log : ℚ → ℚ)
    (pmbec_coeff_vec : List ℚ) (X_idx : NatMatrix) (Y W : List ℚ)
    (n_splits split_idx : ℕ) : Except Err ℚ :=
  let n_samples := Y.length
  let split_size := n_samples / n_splits
  let test_start := split_idx * split_size
  let test_stop := min ((split_idx + 1) * split_size) n_samples
  let (X_train_idx, X_test_idx) := split X_idx test_start test_stop
  let (Y_train, Y_test) := split Y test_start test_stop
  let (W_train, W_test) := split W test_start test_stop
  (refineIters m ridge log X_train_idx X_test_idx Y_train W_train Y_test W_test
      5 pmbec_coeff_vec).bind
    fun res =>
      match res.2 with
      | some e => .ok e
      | none => .error Err.nameError

/-- `cross_validation(X_idx, Y, W, n_splits=10)`: run every fold in order;
after the fold loop ends, `errors.append(split_error)` executes once (it
sits OUTSIDE the fold loop in the source), so `errors` holds only the last
fold's error, and the returned `np.mean(errors)` is that single value.
The pmbec reference coefficient vector, read from an external library at
the top of the function, is a parameter. -/
def cross_validation (m : SkModel) (ridge : QMatrix → List ℚ → List ℚ)
    (log : ℚ → ℚ) (pmbec_coeff_vec : List ℚ) (X_idx : NatMatrix)
    (Y W : List ℚ) (n_splits : ℕ := 10) : Except Err ℚ :=
  (exceptMap (foldError m ridge log pmbec_coeff_vec X_idx Y W n_splits)
      (List.range n_splits)).bind
    fun es =>
      match es.getLast? with
      | some e => .ok (npMean [e])
      | none => .error Err.nameError

set_option maxRecDepth 20000 in
/-- C1 fails on the code: `errors.append(split_error)` is indented outside
the fold loop, so the returned "Overall CV error" is the mean of the
singleton list holding only the last fold's error.  On this concrete
2-fold run (constant-zero predictor) the two folds have weighted mean
absolute errors 1 and 3; the claimed overall error is their mean 2, but
the function returns 3. -/
theorem cv_returns_last_fold_error :
    cross_validation ⟨fun _ _ _ => [0], fun _ _ _ Xtest => Xtest.map fun _ => 0⟩
        (fun _ _ => List.replicate 400 0) (fun y => y) (List.replicate 400 0)
        [[0], [0]] [1, 3] [1, 1] 2 = .ok 3 ∧
    foldError ⟨fun _ _ _ => [0], fun _ _ _ Xtest => Xtest.map fun _ => 0⟩
        (fun _ _ => List.replicate 400 0) (fun y => y) (List.replicate 400 0)
        [[0], [0]] [1, 3] [1, 1] 2 0 = .ok 1 ∧
    foldError ⟨fun _ _ _ => [0], fun _ _ _ Xtest => Xtest.map fun _ => 0⟩
        (fun _ _ => List.replicate 400 0) (fun y => y) (List.replicate 400 0)
        [[0], [0]] [1, 3] [1, 1] 2 1 = .ok 3 ∧
    npMean [1, 3] ≠ 3 := by
  refine ⟨by with_unfolding_all rfl, by with_unfolding_all rfl,
    by with_unfolding_all rfl, ?_⟩
  rw [npMean]
  norm_num

/-- C3 (amended): every fit call recorded in a successful run of the
refinement loop passes the raw (untransformed) train targets and the train
sample weights to the model, and its feature matrix is the materialization
of the train index matrix under some coefficient vector; the log transform
happens only inside `estimate_pairwise_features`. -/
theorem refine_fit_calls_raw_targets (m : SkModel)
    (ridge : QMatrix → List ℚ → List ℚ) (log : ℚ → ℚ)
    (X_train_idx X_test_idx : NatMatrix)
    (Y_train W_train Y_test W_test : List ℚ) :
    ∀ (iters : ℕ) (coeff : List ℚ) (calls : List FitCall) (oe : Option ℚ),
      refineIters m ridge log X_train_idx X_test_idx Y_train W_train Y_test W_test
          iters coeff = .ok (calls, oe) →
      ∀ call ∈ calls, call.targets = Y_train ∧ call.weights = W_train ∧
        ∃ c, encode_inputs X_train_idx c = .ok call.features := by
  intro iters
  induction iters with
  | zero =>
    intro coeff calls oe h call hcall
    rw [refineIters] at h
    injection h with h'
    injection h' with hcalls hoe
    subst hcalls
    exact absurd hcall (List.not_mem_nil call)
  | succ k ih =>
    intro coeff calls oe h call hcall
    rw [refineIters] at h
    cases htr : encode_inputs X_train_idx coeff with
    | error e => rw [htr] at h; exact absurd h (by simp [Except.bind])
    | ok X_train =>
      cases hte : encode_inputs X_test_idx coeff with
      | error e => rw [htr, hte] at h; exact absurd h (by simp [Except.bind])
      | ok X_test =>
        rw [htr, hte] at h
        simp only [Except.bind] at h
        by_cases hk : k = 0
        · rw [if_pos hk] at h
          injection h with h'
          injection h' with hcalls hoe
          subst hcalls
          rcases List.mem_cons.mp hcall with rfl | hnil
          · exact ⟨rfl, rfl, coeff, htr⟩
          · exact absurd hnil (List.not_mem_nil call)
        · rw [if_neg hk] at h
          cases hest : estimate_pairwise_features ridge log X_train_idx
              (m.coef X_train Y_train W_train) Y_train with
          | error e => rw [hest] at h; exact absurd h (by simp [Except.bind])
          | ok coeff2 =>
            rw [hest] at h
            simp only [Except.bind] at h
            cases hrec : refineIters m ridge log X_train_idx X_test_idx Y_train
                W_train Y_test W_test k coeff2 with
            | error e => rw [hrec] at h; exact absurd h (by simp [Except.map])
            | ok res =>
              rw [hrec] at h
              simp only [Except.map] at h
              injection h with h'
              injection h' with hcalls hoe
              subst hcalls
              rcases List.mem_cons.mp hcall with rfl | htail
              · exact ⟨rfl, rfl, coeff, htr⟩
              · exact ih coeff2 res.1 res.2 (by rw [hrec]) call htail

set_option maxRecDepth 20000 in
/-- Witness for C3's amended claim: in a concrete successful run the
recorded fit calls pass the raw targets `[3]` and weights `[1]`, and the
features materialize the train index matrix. -/
theorem refine_fit_calls_raw_targets_witness :
    (⟨[[0]], [3], [1]⟩ : FitCall).targets = [3] ∧
    (⟨[[0]], [3], [1]⟩ : FitCall).weights = [1] ∧
    ∃ c, encode_inputs [[0]] c = .ok (⟨[[0]], [3], [1]⟩ : FitCall).features :=
  refine_fit_calls_raw_targets
    ⟨fun _ _ _ => [0], fun _ _ _ Xtest => Xtest.map fun _ => 0⟩
    (fun _ _ => List.replicate 400 0) (fun y => y) [[0]] [[0]] [3] [1] [1] [1]
    5 (List.replicate 400 0) (List.replicate 5 ⟨[[0]], [3], [1]⟩)
    (some 1) (by with_unfolding_all rfl) ⟨[[0]], [3], [1]⟩
    (List.mem_replicate.mpr ⟨by norm_num, rfl⟩)

set_option maxRecDepth 20000 in
/-- C3 counterexample: the claim says every FitModel step trains on the
natural-log-transformed targets, but in this concrete run all five fit
calls receive the raw targets `[3]`, and `(3 : ℝ)` is not `Real.log 3`. -/
theorem fit_log_targets_counterexample :
    (∃ oe, refineIters
        ⟨fun _ _ _ => [0], fun _ _ _ Xtest => Xtest.map fun _ => 0⟩
        (fun _ _ => List.replicate 400 0) (fun y => y) [[0]] [[0]] [3] [1] [1] [1]
        5 (List.replicate 400 0) =
          .ok (List.replicate 5 ⟨[[0]], [3], [1]⟩, oe) ∧
      (List.replicate 5 (⟨[[0]], [3], [1]⟩ : FitCall)).map
          (fun c => c.targets) = List.replicate 5 [3]) ∧
    ((3 : ℝ) ≠ Real.log 3) := by
  refine ⟨⟨some 1, by with_unfolding_all rfl, rfl⟩, ?_⟩
  have h := Real.log_le_sub_one_of_pos (show (0 : ℝ) < 3 by norm_num)
  intro heq
  rw [← heq] at h
  linarith

end Mhcpred
